import Mathlib

/-!
Verification of the structural transduction engine of the html2docx converter
(`src/htmldocx/h2d.py`) against its natural-language specification.

The development shallowly embeds the parts of the source the claims are about:

* the table grid resolver (`HtmlToDocx.handle_table`, lines 317-393),
* the list renderer (`HtmlToDocx.handle_list` / `_parse_list_item_content`,
  lines 395-446) together with the numbering formatter (`to_roman`, lines 57-72),
* the block dispatcher (`HtmlToDocx._parse_elements`, lines 270-315) with the
  handlers for `pre`, `br`, text nodes and images, and
* the conversion entry points (`add_html_to_document`, `add_html_to_cell`).

Machine-level collaborators (python-docx, BeautifulSoup, the network, the file
system) are modelled as explicit data (paragraph/run records) or as oracle
functions in a `Config` record, exactly along the boundaries the spec draws.
-/

namespace Html2Docx

/-! ## Python string stripping

`str.strip()` as used by the dispatcher on text nodes; the ASCII whitespace
characters are the ones relevant to the converter's inputs. -/

def isPySpace (c : Char) : Bool :=
  c = ' ' || c = '\t' || c = '\n' || c = '\r' || c = '\x0b' || c = '\x0c'

def pyStrip (s : String) : String :=
  String.mk (((s.toList.dropWhile isPySpace).reverse.dropWhile isPySpace).reverse)

/-! ## URL helpers (`is_url`, `get_filename_from_url`, h2d.py lines 31-39)

The source delegates to `urllib.parse.urlparse`; that collaborator is modelled
here for the `scheme://netloc/path` shapes the converter distinguishes:
a string with a syntactically valid scheme followed by `://` splits into
scheme, netloc (up to the first slash) and path (the rest); anything else has
empty scheme and netloc and is all path. -/

def isSchemeChar (c : Char) : Bool :=
  c.isAlphanum || c = '+' || c = '-' || c = '.'

/-- Split a character list at the first occurrence of `://`. -/
def findSchemeSplit : List Char → Option (List Char × List Char)
  | [] => none
  | ':' :: '/' :: '/' :: rest => some ([], rest)
  | c :: rest => (findSchemeSplit rest).map (fun p => (c :: p.1, p.2))

/-- Model of `urllib.parse.urlparse` restricted to the `(scheme, netloc, path)`
components the source reads. -/
def urlSplit (s : String) : String × String × String :=
  match findSchemeSplit s.toList with
  | some (sch, rest) =>
      if sch ≠ [] ∧ (sch.headD 'a').isAlpha ∧ sch.all isSchemeChar then
        (String.mk sch, String.mk (rest.takeWhile (fun c => c ≠ '/')),
         String.mk (rest.dropWhile (fun c => c ≠ '/')))
      else ("", "", s)
  | none => ("", "", s)

/-- `is_url` (h2d.py line 36): all of scheme, netloc and path are non-empty. -/
def isUrl (s : String) : Bool :=
  let (sch, nl, p) := urlSplit s
  sch ≠ "" && nl ≠ "" && p ≠ ""

/-- `os.path.basename`: the part after the last slash. -/
def basenameAux : List Char → List Char → List Char
  | [], cur => cur.reverse
  | '/' :: rest, _ => basenameAux rest []
  | c :: rest, cur => basenameAux rest (c :: cur)

def basename (s : String) : String :=
  String.mk (basenameAux s.toList [])

/-- `get_filename_from_url` (h2d.py line 31): basename of the parsed path. -/
def getFilenameFromUrl (url : String) : String :=
  basename (urlSplit url).2.2

/-! ## Roman numerals (`to_roman`, h2d.py lines 57-72) -/

def romanMap : List (Nat × String) :=
  [(1000, "m"), (900, "cm"), (500, "d"), (400, "cd"),
   (100, "c"), (90, "xc"), (50, "l"), (40, "xl"),
   (10, "x"), (9, "ix"), (5, "v"), (4, "iv"),
   (1, "i")]

/-- One `while n >= value` loop of `to_roman`, run with explicit fuel.  The
fuel is the value of `n` on entry, which bounds the iteration count since
each pass subtracts `value ≥ 1`; the table contains no zero values, and the
`1 ≤ v` guard only makes that explicit. -/
def romanWhile (v : Nat) (sym : String) : Nat → Nat → String → Nat × String
  | 0, n, acc => (n, acc)
  | fuel + 1, n, acc =>
      if 1 ≤ v ∧ v ≤ n then romanWhile v sym fuel (n - v) (acc ++ sym)
      else (n, acc)

/-- `to_roman` (h2d.py line 57): values outside `1..3999` fall back to the
decimal string; otherwise the greedy subtraction over `romanMap`. -/
def toRoman (n : Nat) : String :=
  if ¬(1 ≤ n ∧ n < 4000) then toString n
  else (romanMap.foldl (fun st p => romanWhile p.1 p.2 st.1 st.1 st.2) (n, "")).2

/-! ## The table grid resolver (`handle_table`, h2d.py lines 317-393) -/

/-- An originating `td`/`th` cell: its parsed `rowspan`/`colspan` attributes
(default 1 each, line 360-361). -/
structure SrcCell where
  rowspan : Nat
  colspan : Nat
deriving Repr, DecidableEq

abbrev SrcRow := List SrcCell

/-- A child of the `table` tag: a direct `tr`, a `thead`/`tbody`/`tfoot`
section holding rows, or anything else (skipped). -/
inductive TChild where
  | tr (cells : SrcRow)
  | sect (children : List TChild)
  | other
deriving Repr

/-- Row collection (lines 322-331): direct `tr` children plus the direct `tr`
children of each section, preserving document order. -/
def collectRows : List TChild → List SrcRow
  | [] => []
  | .tr cs :: rest => cs :: collectRows rest
  | .sect ch :: rest =>
      (ch.filterMap fun c => match c with | .tr cs => some cs | _ => none)
        ++ collectRows rest
  | .other :: rest => collectRows rest

/-- Sum of a row's `colspan`s (lines 339-341). -/
def rowColspanSum (r : SrcRow) : Nat := (r.map (·.colspan)).sum

/-- `max_cols` (lines 337-343): running maximum of the rows' colspan sums. -/
def maxColsOf (rows : List SrcRow) : Nat :=
  rows.foldl (fun m r => max m (rowColspanSum r)) 0

/-- The resolved span rectangle recorded for an originating cell:
top-left corner and clipped spans (spec §3 GridCell). -/
structure Placement where
  row : Nat
  col : Nat
  rspan : Nat
  cspan : Nat
deriving Repr, DecidableEq

/-- `grid_map` (line 350): occupancy of each grid position. -/
abbrev Grid := Nat → Nat → Bool

/-- Marking the span rectangle into `grid_map` (lines 390-393); positions
outside the `r < num_rows`, `c < max_cols` bounds are skipped, as in the
source's guard. -/
def markRect (g : Grid) (numRows maxCols i j rs cs : Nat) : Grid :=
  fun r c =>
    if i ≤ r ∧ r < i + rs ∧ j ≤ c ∧ c < j + cs ∧ r < numRows ∧ c < maxCols then
      true
    else g r c

/-- The column-cursor `while` loop (line 357), with explicit fuel.  The fuel
`maxCols - j` bounds the iterations: `j` increases by one per pass and the
loop exits at `j = maxCols`, so when the fuel runs out the cursor is exactly
at `maxCols`, as in the source. -/
def findJAux (g : Grid) (i maxCols : Nat) : Nat → Nat → Nat
  | j, 0 => j
  | j, fuel + 1 =>
      if j < maxCols then (if g i j then findJAux g i maxCols (j + 1) fuel else j)
      else j

def findJ (g : Grid) (i maxCols j : Nat) : Nat :=
  findJAux g i maxCols j (maxCols - j)

/-- Resolver state: the occupancy grid, the resolved cells recorded so far,
and the list of `(row, col)` arguments passed to the backend `table.cell`
accessor (lines 366 and 387), in order. -/
structure ResolveState where
  grid : Grid
  placements : List Placement
  accesses : List (Nat × Nat)

/-- Processing of one originating cell (lines 356-393): advance the cursor to
the first free column, clip both spans to the grid bounds, fetch the backend
cell at `(i, j)` (and the merge end cell when a span exceeds 1), and mark the
rectangle occupied.  Header styling and the per-cell content conversion do not
affect the grid and are not modelled. -/
def processCell (numRows maxCols i : Nat) (st : ResolveState × Nat) (cell : SrcCell) :
    ResolveState × Nat :=
  let j := findJ st.1.grid i maxCols st.2
  let rs := if i + cell.rowspan > numRows then numRows - i else cell.rowspan
  let cs := if j + cell.colspan > maxCols then maxCols - j else cell.colspan
  let acc1 := st.1.accesses ++ [(i, j)]
  let acc2 := if rs > 1 ∨ cs > 1 then acc1 ++ [(i + rs - 1, j + cs - 1)] else acc1
  ⟨⟨markRect st.1.grid numRows maxCols i j rs cs,
    st.1.placements ++ [⟨i, j, rs, cs⟩], acc2⟩, j⟩

/-- Processing of one row (lines 352-356): the cursor restarts at column 0. -/
def processRow (numRows maxCols : Nat) (st : ResolveState) (ir : Nat × SrcRow) :
    ResolveState :=
  (ir.2.foldl (processCell numRows maxCols ir.1) (st, 0)).1

/-- The grid resolution over all collected rows. -/
def resolveRows (rows : List SrcRow) : ResolveState :=
  (rows.enum).foldl (processRow rows.length (maxColsOf rows)) ⟨fun _ _ => false, [], []⟩

/-- `handle_table` top level: no rows or zero resolved columns produce no
table (lines 333-346). -/
def resolveTable (children : List TChild) : Option ResolveState :=
  let rows := collectRows children
  if rows = [] then none
  else if maxColsOf rows = 0 then none
  else some (resolveRows rows)

/-- Whether a resolved cell's span rectangle covers grid position `(r, c)`. -/
def Placement.covers (p : Placement) (r c : Nat) : Bool :=
  decide (p.row ≤ r ∧ r < p.row + p.rspan ∧ p.col ≤ c ∧ c < p.col + p.cspan)

/-! ## The list renderer (`handle_list` / `_parse_list_item_content`,
h2d.py lines 395-446) -/

inductive ListTag where
  | ul
  | ol
deriving Repr, DecidableEq

/-- The element shapes the list renderer distinguishes: text nodes, `li`
items, nested `ul`/`ol` lists, `br`, and any other tag (whose flattened text
is used). -/
inductive LNode where
  | text (s : String)
  | li (children : List LNode)
  | list (tag : ListTag) (children : List LNode)
  | br
  | unk (children : List LNode)

/-- A run inside a list paragraph: its text and the number of manual line
breaks appended to it. -/
structure LRun where
  text : String
  breaks : Nat
deriving Repr, DecidableEq

/-- A paragraph emitted by the list renderer.  `level` records the nesting
level argument the paragraph was created at; it determines the left indent,
which is `Inches(min((level + 1) * LIST_INDENT, MAX_INDENT))` in the source
(line 409) and is kept here in half-inch units (`LIST_INDENT = 0.5`,
`MAX_INDENT = 5.5`). -/
structure LPara where
  level : Nat
  indentHalves : Nat
  runs : List LRun
deriving Repr, DecidableEq

/-- The bullet glyph table (line 401); the literal characters are exactly the
ones in the source file. -/
def ulBullets : List String := ["â€¢", "o", "-"]

/-- The ordered-list marker for a nesting level and counter value
(lines 411-417). -/
def olMarker (level counter : Nat) : String :=
  if level = 0 then toString counter ++ "."
  else if level = 1 then String.singleton (Char.ofNat (97 + counter - 1)) ++ "."
  else toRoman counter ++ "."

/-- The counter value for the next sibling after one `li` (line 419): it
advances only for ordered lists. -/
def nextCounter (tag : ListTag) (start : Nat) : Nat :=
  match tag with
  | .ol => start + 1
  | .ul => start

/-- The marker run text for one `li` (lines 411-422): marker followed by a
tab. -/
def markerRunText (tag : ListTag) (level counter : Nat) : String :=
  match tag with
  | .ol => olMarker level counter ++ "\t"
  | .ul => ulBullets.getD (level % ulBullets.length) "" ++ "\t"

/-- BeautifulSoup `get_text(strip=True)`: concatenation of the stripped text
descendants. -/
def lGetTextStrip : List LNode → String
  | [] => ""
  | .text s :: rest => pyStrip s ++ lGetTextStrip rest
  | .li cs :: rest => lGetTextStrip cs ++ lGetTextStrip rest
  | .list _ cs :: rest => lGetTextStrip cs ++ lGetTextStrip rest
  | .br :: rest => lGetTextStrip rest
  | .unk cs :: rest => lGetTextStrip cs ++ lGetTextStrip rest

/-- The parent argument of `handle_list`: the surrounding container that is
passed along on recursion (line 428) or replaced by `self.doc` (line 437).
The renderer never reads it — paragraphs are always created on `self.doc`
(line 408). -/
inductive ParentRef where
  | docRef
  | cellRef
  | paraRef
deriving Repr, DecidableEq

mutual

/-- `handle_list` (lines 395-428): walk the list's children with a per-call
item counter starting at `start`; each direct `li` child emits one paragraph
carrying the marker run followed by the item's inline content; a `ul`/`ol`
appearing directly under the list (malformed markup) is rendered one level
deeper with a fresh default counter, reusing the same parent; text nodes and
any other tags are skipped.  The counter advances only on `li` children of an
ordered list.  Returns the paragraphs appended to `self.doc`, in order. -/
def handleList (tag : ListTag) (cs : List LNode) (parent : ParentRef)
    (level start : Nat) : List LPara :=
  match cs with
  | [] => []
  | .text _ :: rest => handleList tag rest parent level start
  | .li inner :: rest =>
      let item := parseListItemContent inner level
      let p : LPara := ⟨level, min (level + 1) 11,
        ⟨markerRunText tag level start, 0⟩ :: item.1⟩
      p :: (item.2 ++ handleList tag rest parent level (nextCounter tag start))
  | .list t inner :: rest =>
      handleList t inner parent (level + 1) 1
        ++ handleList tag rest parent level start
  | .br :: rest => handleList tag rest parent level start
  | .unk _ :: rest => handleList tag rest parent level start

/-- `_parse_list_item_content` (lines 430-446): returns the runs added to the
item's paragraph and the extra paragraphs created after it (by nested lists,
which restart at counter 1 one level deeper, against `self.doc`). -/
def parseListItemContent (cs : List LNode) (level : Nat) : List LRun × List LPara :=
  match cs with
  | [] => ([], [])
  | .text s :: rest =>
      let r := parseListItemContent rest level
      if pyStrip s = "" then r else (⟨pyStrip s, 0⟩ :: r.1, r.2)
  | .li inner :: rest =>
      -- an `li` inside an `li` is not a list, a font tag or a link: it falls
      -- to the final branch and contributes its flattened stripped text
      let r := parseListItemContent rest level
      (⟨lGetTextStrip inner, 0⟩ :: r.1, r.2)
  | .list t inner :: rest =>
      let r := parseListItemContent rest level
      (r.1, handleList t inner .docRef (level + 1) 1 ++ r.2)
  | .br :: rest =>
      let r := parseListItemContent rest level
      (⟨"", 1⟩ :: r.1, r.2)
  | .unk inner :: rest =>
      let r := parseListItemContent rest level
      (⟨lGetTextStrip inner, 0⟩ :: r.1, r.2)

end

/-! ## The block dispatcher (`_parse_elements`, h2d.py lines 270-315) and the
handlers for `pre` (lines 484-498), `br` (lines 300-306), text nodes
(lines 277-286) and images (`handle_img`, lines 581-611).

The document backend is modelled by explicit paragraph/run records; the
network and file system behind `handle_img` are oracle functions in `Config`.
Tags outside the claims under verification (tables, lists, headings,
blockquotes, links, rules) are not part of the element type. -/

/-- A run in the output document: text, number of appended manual line
breaks, font-name override, and whether a picture was embedded in it. -/
structure DRun where
  text : String
  breaks : Nat
  fontName : Option String
  picture : Bool
deriving Repr, DecidableEq

def textRun (s : String) : DRun := ⟨s, 0, none, false⟩

/-- A paragraph in the output document: named style, shading fill, runs. -/
structure DPara where
  style : Option String
  shading : Option String
  runs : List DRun
deriving Repr, DecidableEq

def emptyPara : DPara := ⟨none, none, []⟩

def textPara (s : String) : DPara := ⟨none, none, [textRun s]⟩

/-- The paragraphs of the container currently converted into (`self.doc`:
the document body or one table cell). -/
abbrev DocState := List DPara

/-- The append target `_parse_elements` dispatches against: the document
body, a table cell, or an open paragraph (identified by its position in the
container, since nested handlers always append new paragraphs to the
container). -/
inductive Ctx where
  | docT
  | cellT
  | paraT (idx : Nat)
deriving Repr, DecidableEq

/-- Python exceptions the dispatcher can raise. -/
inductive PyError where
  | invalidInputType
  | attributeError
deriving Repr, DecidableEq

/-- The element shapes the verified handlers dispatch on. -/
inductive Elem where
  | text (s : String)
  | pre (children : List Elem)
  | br
  | img (src : Option String)
  | unk (children : List Elem)

/-- Conversion options and external collaborators: the `images` option,
whether fetching (and embedding) a URL image succeeds, and whether a local
path exists. -/
structure Config where
  includeImages : Bool
  fetchOk : String → Bool
  pathExists : String → Bool

/-- Replace the last element of a list (the source's pattern of mutating
`parent.paragraphs[-1]` or `p.runs[-1]`). -/
def mapLast (f : α → α) : List α → List α
  | [] => []
  | [a] => [f a]
  | a :: rest => a :: mapLast f rest

/-- Replace the element at an index (mutating the identified open
paragraph). -/
def modifyIdx (f : α → α) : Nat → List α → List α
  | _, [] => []
  | 0, a :: rest => f a :: rest
  | n + 1, a :: rest => a :: modifyIdx f n rest

def addRunToPara (r : DRun) (p : DPara) : DPara := ⟨p.style, p.shading, p.runs ++ [r]⟩

def addBreakToRun (r : DRun) : DRun := ⟨r.text, r.breaks + 1, r.fontName, r.picture⟩

/-- BeautifulSoup `get_text()` with no stripping: the concatenation of all
descendant text, verbatim. -/
def getText : List Elem → String
  | [] => ""
  | .text s :: rest => s ++ getText rest
  | .pre cs :: rest => getText cs ++ getText rest
  | .br :: rest => getText rest
  | .img _ :: rest => getText rest
  | .unk cs :: rest => getText cs ++ getText rest

/-- `handle_pre` (lines 484-498): a new paragraph on the container with the
`No Spacing` style and an `F5F5F5` shading fill, holding one run whose text
is the raw flattened text in `Courier New`. -/
def prePara (cs : List Elem) : DPara :=
  ⟨some "No Spacing", some "F5F5F5", [⟨getText cs, 0, some "Courier New", false⟩]⟩

def picRun : DRun := ⟨"", 0, none, true⟩

/-- `handle_img` (lines 581-611).  The `hasattr` dispatch mirrors the
backend: the document body has `add_picture`; a cell has `add_paragraph` but
no `add_picture`; an open paragraph has neither, so both the picture and the
fallback are silently skipped there.  A fetched image that fails to embed is
folded into the fetch oracle. -/
def handleImg (cfg : Config) (src? : Option String) (ctx : Ctx) (st : DocState) :
    DocState :=
  if ¬cfg.includeImages then st
  else match src? with
    | none => st
    | some src =>
        let srcIsUrl := isUrl src
        let ok := if srcIsUrl then cfg.fetchOk src else cfg.pathExists src
        if ok then
          match ctx with
          | .docT => st ++ [⟨none, none, [picRun]⟩]
          | .cellT => st ++ [⟨none, none, [picRun]⟩]
          | .paraT _ => st
        else
          let fallback := if srcIsUrl then "<image: " ++ src ++ ">"
            else "<image: " ++ getFilenameFromUrl src ++ ">"
          match ctx with
          | .docT => st ++ [textPara fallback]
          | .cellT => st ++ [textPara fallback]
          | .paraT _ => st

/-- `_parse_elements` (lines 270-315) over the element shapes above.

* Text nodes (lines 277-286): whitespace-only nodes are dropped; otherwise
  the stripped text becomes a run on the open paragraph, or on the
  container's last paragraph (created when none exists).
* `pre` appends its paragraph to the container regardless of target.
* `br` (lines 300-306): a document target always gets a fresh paragraph
  (which has no runs, so no break is ever added there); a cell target uses
  its last paragraph, or creates one, and appends a break to the last run if
  the paragraph has one; a paragraph target crashes, since the backend
  paragraph object has no `paragraphs` attribute.
* `img` delegates to `handleImg`.
* Unknown tags recurse into their children with the same target. -/
def parseElements (cfg : Config) : List Elem → Ctx → DocState → Except PyError DocState
  | [], _, st => .ok st
  | .text s :: rest, ctx, st =>
      let s' := pyStrip s
      if s' = "" then parseElements cfg rest ctx st
      else
        match ctx with
        | .paraT idx => parseElements cfg rest (.paraT idx)
            (modifyIdx (addRunToPara (textRun s')) idx st)
        | c =>
            match st with
            | [] => parseElements cfg rest c [⟨none, none, [textRun s']⟩]
            | _ => parseElements cfg rest c (mapLast (addRunToPara (textRun s')) st)
  | .pre cs :: rest, ctx, st => parseElements cfg rest ctx (st ++ [prePara cs])
  | .br :: rest, ctx, st =>
      match ctx with
      | .docT => parseElements cfg rest .docT (st ++ [emptyPara])
      | .cellT =>
          match st.getLast? with
          | none => parseElements cfg rest .cellT (st ++ [emptyPara])
          | some p =>
              if p.runs.isEmpty then parseElements cfg rest .cellT st
              else parseElements cfg rest .cellT
                (mapLast (fun q => ⟨q.style, q.shading, mapLast addBreakToRun q.runs⟩) st)
      | .paraT _ => .error .attributeError
  | .img src? :: rest, ctx, st => parseElements cfg rest ctx (handleImg cfg src? ctx st)
  | .unk cs :: rest, ctx, st =>
      match parseElements cfg cs ctx st with
      | .error e => .error e
      | .ok st' => parseElements cfg rest ctx st'

/-! ## Conversion entry points (`add_html_to_document`, `add_html_to_cell`,
h2d.py lines 193-225) -/

/-- The first argument of `add_html_to_document`: a string (already parsed
into an element tree by the HTML collaborator) or a value of any other
type. -/
inductive HtmlArg where
  | html (elems : List Elem)
  | nonString

/-- The second argument: a document, a table cell (each carrying their
current paragraphs), or a value of any other type. -/
inductive TargetArg where
  | document (st : DocState)
  | cell (st : DocState)
  | other

/-- `add_html_to_document` (lines 193-205): both arguments are type-checked
before any conversion step runs; only then is the tree dispatched into the
target. -/
def addHtmlToDocument (cfg : Config) (h : HtmlArg) (t : TargetArg) :
    Except PyError DocState :=
  match h with
  | .nonString => .error .invalidInputType
  | .html elems =>
      match t with
      | .document st => parseElements cfg elems .docT st
      | .cell st => parseElements cfg elems .cellT st
      | .other => .error .invalidInputType

/-- `add_html_to_cell` (lines 207-225): the cell's content is cleared
(`cell.text = ''` followed by deleting the one remaining paragraph), the
tree is converted into the now-empty cell, and a final empty paragraph is
appended when the conversion produced none. -/
def addHtmlToCell (cfg : Config) (elems : List Elem) (cell : DocState) :
    Except PyError DocState :=
  match parseElements cfg elems .cellT [] with
  | .error e => .error e
  | .ok converted => .ok (if converted.isEmpty then converted ++ [emptyPara] else converted)

/-! ## Spec-side definitions

These definitions follow the wording of the specification (not the source);
the refinement theorems below compare them with the embedded source
functions. -/

/-- Iterated self-concatenation of a numeral symbol, for closed forms of the
greedy Roman loops. -/
def symPow (sym : String) : Nat → String
  | 0 => ""
  | k + 1 => sym ++ symPow sym k

/-- The divmod chain equivalent of running every greedy loop to
completion. -/
def chainRun : List (Nat × String) → Nat → String → Nat × String
  | [], n, acc => (n, acc)
  | (v, sym) :: rest, n, acc => chainRun rest (n % v) (acc ++ symPow sym (n / v))

/-- Standard lowercase Roman numerals, digit by digit (spec-side). -/
def romanOnes : List String :=
  ["", "i", "ii", "iii", "iv", "v", "vi", "vii", "viii", "ix"]

def romanTens : List String :=
  ["", "x", "xx", "xxx", "xl", "l", "lx", "lxx", "lxxx", "xc"]

def romanHundreds : List String :=
  ["", "c", "cc", "ccc", "cd", "d", "dc", "dcc", "dccc", "cm"]

def romanThousands : List String := ["", "m", "mm", "mmm"]

/-- The lowercase Roman numeral of `n` by positional digit tables
(spec-side: an independent formulation of "the lowercase Roman numeral"). -/
def romanSpec (n : Nat) : String :=
  romanThousands.getD (n / 1000) "" ++ romanHundreds.getD (n / 100 % 10) ""
    ++ romanTens.getD (n / 10 % 10) "" ++ romanOnes.getD (n % 10) ""

/-- The ordered-list marker text exactly as claim C4 words it: level 0 the
Arabic numeral with a period; level 1 the letter at distance `counter - 1`
from `a` with a period; level 2 and deeper the lowercase Roman numeral with
a period for `1 ≤ counter ≤ 3999` and the decimal string with a period
otherwise. -/
def markerSpecC4 (level counter : Nat) : String :=
  if level = 0 then toString counter ++ "."
  else if level = 1 then String.singleton (Char.ofNat (97 + counter - 1)) ++ "."
  else if 1 ≤ counter ∧ counter ≤ 3999 then romanSpec counter ++ "."
  else toString counter ++ "."

/-- The number of direct `li` children of a list node. -/
def liCount : List LNode → Nat
  | [] => 0
  | .li _ :: rest => liCount rest + 1
  | _ :: rest => liCount rest

/-- The text of a paragraph's first run (the marker run, for list item
paragraphs). -/
def firstRunText (p : LPara) : String := (p.runs.headD ⟨"", 0⟩).text

/-- The span rectangles a well-formed-table resolution should produce
(spec-side): each row's cells laid out consecutively from column 0, one grid
row high. -/
def rowPlacements (i : Nat) : Nat → SrcRow → List Placement
  | _, [] => []
  | s, cell :: rest => ⟨i, s, 1, cell.colspan⟩ :: rowPlacements i (s + cell.colspan) rest

def specPlacements (rows : List SrcRow) : List Placement :=
  (rows.enum).flatMap (fun ir => rowPlacements ir.1 0 ir.2)

/-- Well-formedness of a table for claim C1 (amended): no row spans, every
colspan at least 1, and every row's colspan total equal to the resolved
column count (which is positive). -/
def WellFormedColspanTable (rows : List SrcRow) : Prop :=
  rows ≠ [] ∧ 0 < maxColsOf rows ∧
    (∀ row ∈ rows, rowColspanSum row = maxColsOf rows) ∧
    (∀ row ∈ rows, ∀ cell ∈ row, cell.rowspan = 1 ∧ 1 ≤ cell.colspan)

instance (rows : List SrcRow) : Decidable (WellFormedColspanTable rows) := by
  unfold WellFormedColspanTable
  infer_instance

/-- A concrete configuration for closed evaluations: images enabled, every
fetch failing, no local path existing. -/
def cfg0 : Config := ⟨true, fun _ => false, fun _ => false⟩

/-! ## Roman numeral refinement lemmas -/

theorem romanWhile_spec (v : Nat) (sym : String) (hv : 1 ≤ v) :
    ∀ fuel n acc, n ≤ fuel →
      romanWhile v sym fuel n acc = (n % v, acc ++ symPow sym (n / v)) := by
  intro fuel
  induction fuel with
  | zero =>
      intro n acc hn
      have hn0 : n = 0 := Nat.le_zero.mp hn
      subst hn0
      simp [romanWhile, symPow]
  | succ f ih =>
      intro n acc hn
      by_cases h : v ≤ n
      · have hrec := ih (n - v) (acc ++ sym) (by omega)
        have hdiv : n / v = (n - v) / v + 1 := by
          rw [Nat.div_eq_sub_div (by omega) h]
        have hmod : n % v = (n - v) % v := Nat.mod_eq_sub_mod h
        simp only [romanWhile, if_pos (And.intro hv h), hrec, hdiv, hmod, symPow]
        rw [String.append_assoc]
      · simp only [romanWhile, if_neg (by omega : ¬(1 ≤ v ∧ v ≤ n))]
        have hdiv : n / v = 0 := Nat.div_eq_of_lt (by omega)
        have hmod : n % v = n := Nat.mod_eq_of_lt (by omega)
        simp [hdiv, hmod, symPow]

theorem romanWhile_run (v : Nat) (sym : String) (n : Nat) (acc : String) (hv : 1 ≤ v) :
    romanWhile v sym n n acc = (n % v, acc ++ symPow sym (n / v)) :=
  romanWhile_spec v sym hv n n acc (Nat.le_refl n)

theorem chainRun_eq :
    ∀ entries n acc, (∀ e ∈ entries, 1 ≤ e.1) →
      (List.foldl (fun st p => romanWhile p.1 p.2 st.1 st.1 st.2) (n, acc) entries).2
        = (chainRun entries n acc).2 := by
  intro entries
  induction entries with
  | nil => intro n acc _; rfl
  | cons e rest ih =>
      intro n acc he
      obtain ⟨v, sym⟩ := e
      rw [List.foldl_cons]
      change (List.foldl (fun st p => romanWhile p.1 p.2 st.1 st.1 st.2)
        (romanWhile v sym n n acc) rest).2 = _
      rw [romanWhile_run v sym n acc (he (v, sym) (List.mem_cons_self _ _))]
      rw [chainRun]
      exact ih (n % v) (acc ++ symPow sym (n / v))
        (fun e hmem => he e (List.mem_cons_of_mem _ hmem))

theorem thousandsPart (a : Nat) (ha : a < 4) :
    symPow "m" a = romanThousands.getD a "" := by
  interval_cases a <;> decide

theorem hundredsPart (m : Nat) (hm : m < 1000) :
    symPow "cm" (m / 900) ++ symPow "d" (m % 900 / 500) ++ symPow "cd" (m % 900 % 500 / 400)
      ++ symPow "c" (m % 900 % 500 % 400 / 100)
    = romanHundreds.getD (m / 100) "" := by
  have hb : m / 100 < 10 := by omega
  set b := m / 100 with hbdef
  interval_cases b
  · rw [show m / 900 = 0 by omega, show m % 900 / 500 = 0 by omega,
      show m % 900 % 500 / 400 = 0 by omega, show m % 900 % 500 % 400 / 100 = 0 by omega]
    decide
  · rw [show m / 900 = 0 by omega, show m % 900 / 500 = 0 by omega,
      show m % 900 % 500 / 400 = 0 by omega, show m % 900 % 500 % 400 / 100 = 1 by omega]
    decide
  · rw [show m / 900 = 0 by omega, show m % 900 / 500 = 0 by omega,
      show m % 900 % 500 / 400 = 0 by omega, show m % 900 % 500 % 400 / 100 = 2 by omega]
    decide
  · rw [show m / 900 = 0 by omega, show m % 900 / 500 = 0 by omega,
      show m % 900 % 500 / 400 = 0 by omega, show m % 900 % 500 % 400 / 100 = 3 by omega]
    decide
  · rw [show m / 900 = 0 by omega, show m % 900 / 500 = 0 by omega,
      show m % 900 % 500 / 400 = 1 by omega, show m % 900 % 500 % 400 / 100 = 0 by omega]
    decide
  · rw [show m / 900 = 0 by omega, show m % 900 / 500 = 1 by omega,
      show m % 900 % 500 / 400 = 0 by omega, show m % 900 % 500 % 400 / 100 = 0 by omega]
    decide
  · rw [show m / 900 = 0 by omega, show m % 900 / 500 = 1 by omega,
      show m % 900 % 500 / 400 = 0 by omega, show m % 900 % 500 % 400 / 100 = 1 by omega]
    decide
  · rw [show m / 900 = 0 by omega, show m % 900 / 500 = 1 by omega,
      show m % 900 % 500 / 400 = 0 by omega, show m % 900 % 500 % 400 / 100 = 2 by omega]
    decide
  · rw [show m / 900 = 0 by omega, show m % 900 / 500 = 1 by omega,
      show m % 900 % 500 / 400 = 0 by omega, show m % 900 % 500 % 400 / 100 = 3 by omega]
    decide
  · rw [show m / 900 = 1 by omega, show m % 900 / 500 = 0 by omega,
      show m % 900 % 500 / 400 = 0 by omega, show m % 900 % 500 % 400 / 100 = 0 by omega]
    decide

theorem tensPart (t : Nat) (ht : t < 100) :
    symPow "xc" (t / 90) ++ symPow "l" (t % 90 / 50) ++ symPow "xl" (t % 90 % 50 / 40)
      ++ symPow "x" (t % 90 % 50 % 40 / 10)
    = romanTens.getD (t / 10) "" := by
  have hb : t / 10 < 10 := by omega
  set b := t / 10 with hbdef
  interval_cases b
  · rw [show t / 90 = 0 by omega, show t % 90 / 50 = 0 by omega,
      show t % 90 % 50 / 40 = 0 by omega, show t % 90 % 50 % 40 / 10 = 0 by omega]
    decide
  · rw [show t / 90 = 0 by omega, show t % 90 / 50 = 0 by omega,
      show t % 90 % 50 / 40 = 0 by omega, show t % 90 % 50 % 40 / 10 = 1 by omega]
    decide
  · rw [show t / 90 = 0 by omega, show t % 90 / 50 = 0 by omega,
      show t % 90 % 50 / 40 = 0 by omega, show t % 90 % 50 % 40 / 10 = 2 by omega]
    decide
  · rw [show t / 90 = 0 by omega, show t % 90 / 50 = 0 by omega,
      show t % 90 % 50 / 40 = 0 by omega, show t % 90 % 50 % 40 / 10 = 3 by omega]
    decide
  · rw [show t / 90 = 0 by omega, show t % 90 / 50 = 0 by omega,
      show t % 90 % 50 / 40 = 1 by omega, show t % 90 % 50 % 40 / 10 = 0 by omega]
    decide
  · rw [show t / 90 = 0 by omega, show t % 90 / 50 = 1 by omega,
      show t % 90 % 50 / 40 = 0 by omega, show t % 90 % 50 % 40 / 10 = 0 by omega]
    decide
  · rw [show t / 90 = 0 by omega, show t % 90 / 50 = 1 by omega,
      show t % 90 % 50 / 40 = 0 by omega, show t % 90 % 50 % 40 / 10 = 1 by omega]
    decide
  · rw [show t / 90 = 0 by omega, show t % 90 / 50 = 1 by omega,
      show t % 90 % 50 / 40 = 0 by omega, show t % 90 % 50 % 40 / 10 = 2 by omega]
    decide
  · rw [show t / 90 = 0 by omega, show t % 90 / 50 = 1 by omega,
      show t % 90 % 50 / 40 = 0 by omega, show t % 90 % 50 % 40 / 10 = 3 by omega]
    decide
  · rw [show t / 90 = 1 by omega, show t % 90 / 50 = 0 by omega,
      show t % 90 % 50 / 40 = 0 by omega, show t % 90 % 50 % 40 / 10 = 0 by omega]
    decide

theorem onesPart (u : Nat) (hu : u < 10) :
    symPow "ix" (u / 9) ++ symPow "v" (u % 9 / 5) ++ symPow "iv" (u % 9 % 5 / 4)
      ++ symPow "i" (u % 9 % 5 % 4 / 1)
    = romanOnes.getD u "" := by
  interval_cases u <;> decide

/-- The source's greedy `to_roman` agrees with the digit-table Roman
numeral on the whole valid range. -/
theorem toRoman_eq_romanSpec (n : Nat) (h1 : 1 ≤ n) (h2 : n < 4000) :
    toRoman n = romanSpec n := by
  unfold toRoman
  rw [if_neg (by omega : ¬¬(1 ≤ n ∧ n < 4000))]
  rw [chainRun_eq romanMap n "" (by decide)]
  simp only [romanMap, chainRun]
  rw [show n % 1000 % 900 % 500 % 400 % 100 = n % 100 from by omega]
  rw [show n % 100 % 90 % 50 % 40 % 10 = n % 10 from by omega]
  rw [show romanSpec n
      = romanThousands.getD (n / 1000) "" ++ romanHundreds.getD (n % 1000 / 100) ""
        ++ romanTens.getD (n % 100 / 10) "" ++ romanOnes.getD (n % 10) ""
    from by unfold romanSpec; rw [show n / 100 % 10 = n % 1000 / 100 from by omega,
        show n / 10 % 10 = n % 100 / 10 from by omega]]
  rw [← thousandsPart (n / 1000) (by omega)]
  rw [← hundredsPart (n % 1000) (by omega)]
  rw [← tensPart (n % 100) (by omega)]
  rw [← onesPart (n % 10) (by omega)]
  simp [String.append_assoc]

/-! ## Table grid resolver lemmas -/

theorem rowColspanSum_cons (cell : SrcCell) (rest : SrcRow) :
    rowColspanSum (cell :: rest) = cell.colspan + rowColspanSum rest := by
  simp [rowColspanSum]

theorem findJAux_prefix (g : Grid) (i maxCols s : Nat)
    (hrow : ∀ c, g i c = true ↔ c < s) (hs : s ≤ maxCols) :
    ∀ fuel j, j ≤ s → s - j ≤ fuel → findJAux g i maxCols j fuel = s := by
  intro fuel
  induction fuel with
  | zero =>
      intro j hj hf
      have hje : j = s := by omega
      subst hje
      simp [findJAux]
  | succ f ih =>
      intro j hj hf
      by_cases hjs : j < s
      · have hg : g i j = true := (hrow j).mpr hjs
        have hjm : j < maxCols := by omega
        simp only [findJAux, if_pos hjm, hg, if_true]
        exact ih (j + 1) (by omega) (by omega)
      · have hje : j = s := by omega
        subst hje
        by_cases hsm : j < maxCols
        · have hg : g i j = false := by
            cases hgv : g i j with
            | false => rfl
            | true => exact absurd ((hrow j).mp hgv) (by omega)
          simp [findJAux, hsm, hg]
        · simp [findJAux, hsm]

theorem findJ_prefix (g : Grid) (i maxCols s j : Nat)
    (hrow : ∀ c, g i c = true ↔ c < s) (hs : s ≤ maxCols) (hj : j ≤ s) :
    findJ g i maxCols j = s :=
  findJAux_prefix g i maxCols s hrow hs (maxCols - j) j hj (by omega)

theorem processCell_spec (numRows maxCols i : Nat) (hi : i < numRows)
    (cell : SrcCell) (hrs : cell.rowspan = 1) (s : Nat)
    (hcap : s + cell.colspan ≤ maxCols) (stj : ResolveState × Nat) (hj : stj.2 ≤ s)
    (hg : ∀ r c, stj.1.grid r c = true ↔ ((r < i ∧ c < maxCols) ∨ (r = i ∧ c < s))) :
    (∀ r c, (processCell numRows maxCols i stj cell).1.grid r c = true
        ↔ ((r < i ∧ c < maxCols) ∨ (r = i ∧ c < s + cell.colspan)))
    ∧ (processCell numRows maxCols i stj cell).1.placements
        = stj.1.placements ++ [⟨i, s, 1, cell.colspan⟩]
    ∧ (processCell numRows maxCols i stj cell).2 = s := by
  have hrow : ∀ c, stj.1.grid i c = true ↔ c < s := by
    intro c
    rw [hg i c]
    omega
  have hfind : findJ stj.1.grid i maxCols stj.2 = s :=
    findJ_prefix _ _ _ _ _ hrow (by omega) hj
  have hrsv : (if i + cell.rowspan > numRows then numRows - i else cell.rowspan) = 1 := by
    rw [hrs, if_neg (by omega)]
  have hcsv : (if s + cell.colspan > maxCols then maxCols - s else cell.colspan)
      = cell.colspan := by
    rw [if_neg (by omega)]
  refine ⟨?_, ?_, ?_⟩
  · intro r c
    simp only [processCell, hfind, hrsv, hcsv, markRect]
    by_cases hin : i ≤ r ∧ r < i + 1 ∧ s ≤ c ∧ c < s + cell.colspan ∧ r < numRows ∧ c < maxCols
    · rw [if_pos hin]
      simp only [true_iff]
      omega
    · rw [if_neg hin]
      rw [hg r c]
      omega
  · simp only [processCell, hfind, hrsv, hcsv]
  · simp only [processCell, hfind]

theorem processRow_cells_spec (numRows maxCols i : Nat) (hi : i < numRows) :
    ∀ (cells : List SrcCell) (s : Nat) (stj : ResolveState × Nat),
      (∀ cell ∈ cells, cell.rowspan = 1 ∧ 1 ≤ cell.colspan) →
      s + rowColspanSum cells ≤ maxCols →
      stj.2 ≤ s →
      (∀ r c, stj.1.grid r c = true ↔ ((r < i ∧ c < maxCols) ∨ (r = i ∧ c < s))) →
      (∀ r c, (cells.foldl (processCell numRows maxCols i) stj).1.grid r c = true
          ↔ ((r < i ∧ c < maxCols) ∨ (r = i ∧ c < s + rowColspanSum cells)))
      ∧ (cells.foldl (processCell numRows maxCols i) stj).1.placements
          = stj.1.placements ++ rowPlacements i s cells := by
  intro cells
  induction cells with
  | nil =>
      intro s stj _ _ hj hg
      refine ⟨?_, by simp [rowPlacements]⟩
      intro r c
      rw [show s + rowColspanSum [] = s from by simp [rowColspanSum]]
      exact hg r c
  | cons cell rest ih =>
      intro s stj hwf hcap hj hg
      have hcell := hwf cell (List.mem_cons_self cell rest)
      have hcap1 : s + cell.colspan ≤ maxCols := by
        rw [rowColspanSum_cons] at hcap
        omega
      have hstep := processCell_spec numRows maxCols i hi cell hcell.1 s hcap1 stj hj hg
      rw [List.foldl_cons]
      have hres := ih (s + cell.colspan) (processCell numRows maxCols i stj cell)
        (fun c hc => hwf c (List.mem_cons_of_mem cell hc))
        (by rw [rowColspanSum_cons] at hcap; omega)
        (by rw [hstep.2.2]; omega)
        hstep.1
      refine ⟨?_, ?_⟩
      · intro r c
        rw [hres.1 r c, rowColspanSum_cons]
        omega
      · rw [hres.2, hstep.2.1, rowPlacements, List.append_assoc, List.singleton_append]

theorem resolveRows_outer (numRows maxCols : Nat) :
    ∀ (rest : List SrcRow) (i : Nat) (st : ResolveState),
      (∀ row ∈ rest, rowColspanSum row = maxCols) →
      (∀ row ∈ rest, ∀ cell ∈ row, cell.rowspan = 1 ∧ 1 ≤ cell.colspan) →
      i + rest.length = numRows →
      (∀ r c, st.grid r c = true ↔ (r < i ∧ c < maxCols)) →
      ((List.enumFrom i rest).foldl (processRow numRows maxCols) st).placements
        = st.placements
          ++ (List.enumFrom i rest).flatMap (fun ir => rowPlacements ir.1 0 ir.2) := by
  intro rest
  induction rest with
  | nil => intro i st _ _ _ _; simp [List.enumFrom]
  | cons row rrest ih =>
      intro i st hsum hwf hlen hg
      have hi : i < numRows := by simp at hlen; omega
      show ((( i, row) :: List.enumFrom (i + 1) rrest).foldl
        (processRow numRows maxCols) st).placements = _
      rw [List.foldl_cons]
      have hrow := processRow_cells_spec numRows maxCols i hi row 0 (st, 0)
        (hwf row (List.mem_cons_self row rrest))
        (by rw [hsum row (List.mem_cons_self row rrest)]; omega)
        (Nat.le_refl 0)
        (by intro r c; rw [hg r c]; omega)
      have hnext := ih (i + 1) (processRow numRows maxCols st (i, row))
        (fun r hr => hsum r (List.mem_cons_of_mem row hr))
        (fun r hr => hwf r (List.mem_cons_of_mem row hr))
        (by simp at hlen ⊢; omega)
        (by
          intro r c
          have := hrow.1 r c
          rw [hsum row (List.mem_cons_self row rrest)] at this
          rw [show processRow numRows maxCols st (i, row)
            = (row.foldl (processCell numRows maxCols i) (st, 0)).1 from rfl]
          rw [this]
          omega)
      rw [hnext]
      rw [show processRow numRows maxCols st (i, row)
        = (row.foldl (processCell numRows maxCols i) (st, 0)).1 from rfl]
      rw [hrow.2]
      rw [show List.enumFrom i (row :: rrest) = (i, row) :: List.enumFrom (i + 1) rrest
        from rfl]
      rw [List.flatMap_cons, List.append_assoc]

theorem resolveRows_placements (rows : List SrcRow) (hwf : WellFormedColspanTable rows) :
    (resolveRows rows).placements = specPlacements rows := by
  obtain ⟨hne, hpos, hsum, hcells⟩ := hwf
  have h := resolveRows_outer rows.length (maxColsOf rows) rows 0
    ⟨fun _ _ => false, [], []⟩ hsum hcells (by omega)
    (by intro r c; simp)
  simpa [resolveRows, specPlacements, List.enum] using h

theorem rowPlacements_countP_covers (i r c : Nat) :
    ∀ (cells : SrcRow) (s : Nat), (∀ cell ∈ cells, 1 ≤ cell.colspan) →
      (rowPlacements i s cells).countP (fun p => p.covers r c)
        = if r = i ∧ s ≤ c ∧ c < s + rowColspanSum cells then 1 else 0 := by
  intro cells
  induction cells with
  | nil =>
      intro s _
      rw [rowPlacements]
      rw [if_neg (by rw [show rowColspanSum [] = 0 from by simp [rowColspanSum]]; omega)]
      simp
  | cons cell rest ih =>
      intro s hwf
      rw [rowPlacements, List.countP_cons, ih (s + cell.colspan)
        (fun x hx => hwf x (List.mem_cons_of_mem cell hx)), rowColspanSum_cons]
      have hcs := hwf cell (List.mem_cons_self cell rest)
      simp only [Placement.covers, decide_eq_true_eq]
      split_ifs <;> omega

theorem rowPlacements_mem (i : Nat) :
    ∀ (cells : SrcRow) (s : Nat), ∀ p ∈ rowPlacements i s cells, p.row = i ∧ p.rspan = 1 := by
  intro cells
  induction cells with
  | nil => intro s p hp; simp [rowPlacements] at hp
  | cons cell rest ih =>
      intro s p hp
      rw [rowPlacements] at hp
      rcases List.mem_cons.mp hp with h | h
      · subst h; exact ⟨rfl, rfl⟩
      · exact ih (s + cell.colspan) p h

theorem specRows_countP_zero (r c : Nat) :
    ∀ (rest : List SrcRow) (i : Nat), r < i →
      ((List.enumFrom i rest).flatMap (fun ir => rowPlacements ir.1 0 ir.2)).countP
        (fun p => p.covers r c) = 0 := by
  intro rest
  induction rest with
  | nil => intro i _; simp [List.enumFrom]
  | cons row rrest ih =>
      intro i hr
      rw [show List.enumFrom i (row :: rrest) = (i, row) :: List.enumFrom (i + 1) rrest
        from rfl]
      rw [List.flatMap_cons, List.countP_append, ih (i + 1) (by omega)]
      have hz : (rowPlacements i 0 row).countP (fun p => p.covers r c) = 0 := by
        rw [List.countP_eq_zero]
        intro p hp
        obtain ⟨h1, h2⟩ := rowPlacements_mem i row 0 p hp
        simp only [Placement.covers, decide_eq_true_eq]
        omega
      rw [hz]

theorem specRows_countP_one (maxCols r c : Nat) :
    ∀ (rest : List SrcRow) (i : Nat),
      (∀ row ∈ rest, rowColspanSum row = maxCols) →
      (∀ row ∈ rest, ∀ cell ∈ row, 1 ≤ cell.colspan) →
      i ≤ r → r < i + rest.length → c < maxCols →
      ((List.enumFrom i rest).flatMap (fun ir => rowPlacements ir.1 0 ir.2)).countP
        (fun p => p.covers r c) = 1 := by
  intro rest
  induction rest with
  | nil => intro i _ _ h1 h2 _; simp at h2; omega
  | cons row rrest ih =>
      intro i hsum hcs h1 h2 hc
      rw [show List.enumFrom i (row :: rrest) = (i, row) :: List.enumFrom (i + 1) rrest
        from rfl, List.flatMap_cons, List.countP_append]
      have hhead := rowPlacements_countP_covers i r c row 0
        (hcs row (List.mem_cons_self row rrest))
      by_cases hr : r = i
      · rw [hhead, if_pos (by rw [hsum row (List.mem_cons_self row rrest)]; omega),
          specRows_countP_zero r c rrest (i + 1) (by omega)]
      · rw [hhead, if_neg (by omega),
          ih (i + 1) (fun x hx => hsum x (List.mem_cons_of_mem row hx))
            (fun x hx => hcs x (List.mem_cons_of_mem row hx)) (by omega)
            (by simp at h2 ⊢; omega) hc]

theorem rowPlacements_area (i : Nat) :
    ∀ (cells : SrcRow) (s : Nat),
      ((rowPlacements i s cells).map (fun p => p.rspan * p.cspan)).sum
        = rowColspanSum cells := by
  intro cells
  induction cells with
  | nil => intro s; simp [rowPlacements, rowColspanSum]
  | cons cell rest ih =>
      intro s
      rw [rowPlacements, List.map_cons, List.sum_cons, ih (s + cell.colspan),
        rowColspanSum_cons]
      simp

theorem specRows_area (maxCols : Nat) :
    ∀ (rest : List SrcRow) (i : Nat),
      (∀ row ∈ rest, rowColspanSum row = maxCols) →
      (((List.enumFrom i rest).flatMap (fun ir => rowPlacements ir.1 0 ir.2)).map
          (fun p => p.rspan * p.cspan)).sum = rest.length * maxCols := by
  intro rest
  induction rest with
  | nil => intro i _; simp [List.enumFrom]
  | cons row rrest ih =>
      intro i hsum
      rw [show List.enumFrom i (row :: rrest) = (i, row) :: List.enumFrom (i + 1) rrest
        from rfl, List.flatMap_cons, List.map_append, List.sum_append]
      rw [rowPlacements_area i row 0, hsum row (List.mem_cons_self row rrest),
        ih (i + 1) (fun x hx => hsum x (List.mem_cons_of_mem row hx))]
      simp [Nat.succ_mul]
      omega

/-! ## Claim theorems: table grid resolver (C1, C2) -/

/-- **C1 counterexample.** The ragged table with rows `[1 cell]` and
`[2 cells]` (all spans 1) resolves to a `2 × 2` grid in which position
`(0, 1)` is covered by no resolved cell at all, and the total covered area is
3, not `2 * 2` minus a discarded area of 0 (no clipping occurs for this
table). -/
theorem c1_counterexample :
    0 < ([[⟨1, 1⟩], [⟨1, 1⟩, ⟨1, 1⟩]] : List SrcRow).length
    ∧ 0 < maxColsOf [[⟨1, 1⟩], [⟨1, 1⟩, ⟨1, 1⟩]]
    ∧ (resolveRows [[⟨1, 1⟩], [⟨1, 1⟩, ⟨1, 1⟩]]).placements
        = [⟨0, 0, 1, 1⟩, ⟨1, 0, 1, 1⟩, ⟨1, 1, 1, 1⟩]
    ∧ ¬((resolveRows [[⟨1, 1⟩], [⟨1, 1⟩, ⟨1, 1⟩]]).placements.countP
        (fun p => p.covers 0 1) = 1)
    ∧ ¬(((resolveRows [[⟨1, 1⟩], [⟨1, 1⟩, ⟨1, 1⟩]]).placements.map
          (fun p => p.rspan * p.cspan)).sum
        = ([[⟨1, 1⟩], [⟨1, 1⟩, ⟨1, 1⟩]] : List SrcRow).length
            * maxColsOf [[⟨1, 1⟩], [⟨1, 1⟩, ⟨1, 1⟩]]) := by
  decide

/-- **C1 amended.** For every *well-formed* table — no row spans, every
colspan at least 1, every row's colspan total equal to the resolved column
count — with positive row and column counts, every grid position `(r, c)`
with `r < numRows`, `c < numCols` is covered by exactly one resolved cell's
span rectangle, and the total covered area is exactly
`numRows * numCols` (nothing is discarded, since no out-of-bounds clipping
occurs for well-formed tables). -/
theorem c1_amended_wellformed_exact_cover (rows : List SrcRow)
    (hwf : WellFormedColspanTable rows) :
    0 < rows.length ∧ 0 < maxColsOf rows
    ∧ (∀ r < rows.length, ∀ c < maxColsOf rows,
        (resolveRows rows).placements.countP (fun p => p.covers r c) = 1)
    ∧ ((resolveRows rows).placements.map (fun p => p.rspan * p.cspan)).sum
        = rows.length * maxColsOf rows := by
  obtain ⟨hne, hpos, hsum, hcells⟩ := hwf
  have hpl := resolveRows_placements rows ⟨hne, hpos, hsum, hcells⟩
  refine ⟨by cases rows with | nil => exact absurd rfl hne | cons a l => simp,
    hpos, ?_, ?_⟩
  · intro r hr c hc
    rw [hpl]
    unfold specPlacements
    rw [show rows.enum = List.enumFrom 0 rows from rfl]
    exact specRows_countP_one (maxColsOf rows) r c rows 0 hsum
      (fun row hrow cell hcell => (hcells row hrow cell hcell).2) (by omega) (by omega) hc
  · rw [hpl]
    unfold specPlacements
    rw [show rows.enum = List.enumFrom 0 rows from rfl]
    exact specRows_area (maxColsOf rows) rows 0 hsum

/-- **C1 amended witness.** A concrete well-formed `2 × 2` table (second row
a single colspan-2 cell): exact cover and full area. -/
theorem c1_amended_wellformed_exact_cover_witness :
    WellFormedColspanTable [[⟨1, 1⟩, ⟨1, 1⟩], [⟨1, 2⟩]]
    ∧ (∀ r < ([[⟨1, 1⟩, ⟨1, 1⟩], [⟨1, 2⟩]] : List SrcRow).length,
        ∀ c < maxColsOf [[⟨1, 1⟩, ⟨1, 1⟩], [⟨1, 2⟩]],
          (resolveRows [[⟨1, 1⟩, ⟨1, 1⟩], [⟨1, 2⟩]]).placements.countP
            (fun p => p.covers r c) = 1)
    ∧ ((resolveRows [[⟨1, 1⟩, ⟨1, 1⟩], [⟨1, 2⟩]]).placements.map
          (fun p => p.rspan * p.cspan)).sum
        = ([[⟨1, 1⟩, ⟨1, 1⟩], [⟨1, 2⟩]] : List SrcRow).length
            * maxColsOf [[⟨1, 1⟩, ⟨1, 1⟩], [⟨1, 2⟩]] :=
  ⟨by decide,
   (c1_amended_wellformed_exact_cover [[⟨1, 1⟩, ⟨1, 1⟩], [⟨1, 2⟩]] (by decide)).2.2.1,
   (c1_amended_wellformed_exact_cover [[⟨1, 1⟩, ⟨1, 1⟩], [⟨1, 2⟩]] (by decide)).2.2.2⟩

/-- **C2 (code evaluated at the failing input).** In the table whose first
row is `[td rowspan=2, td]` and second row `[td, td]`, the second cell of
row 1 is reached after the row's grid positions are exhausted: the cursor
ends at column 2 with `numCols = 2`, and the resolver still passes `(1, 2)`
to the backend `table.cell` accessor — a column index outside the grid
(the flat backend index `1 * 2 + 2 = 4` equals the total cell count, an
`IndexError`) — while the clipped placement `⟨1, 2, 1, 0⟩` covers nothing in
the occupancy grid.  The cell is therefore not silently dropped. -/
theorem c2_overflow_cell_not_dropped :
    ([[⟨2, 1⟩, ⟨1, 1⟩], [⟨1, 1⟩, ⟨1, 1⟩]] : List SrcRow).length = 2
    ∧ maxColsOf [[⟨2, 1⟩, ⟨1, 1⟩], [⟨1, 1⟩, ⟨1, 1⟩]] = 2
    ∧ (resolveRows [[⟨2, 1⟩, ⟨1, 1⟩], [⟨1, 1⟩, ⟨1, 1⟩]]).accesses
        = [(0, 0), (1, 0), (0, 1), (1, 1), (1, 2)]
    ∧ (1, 2) ∈ (resolveRows [[⟨2, 1⟩, ⟨1, 1⟩], [⟨1, 1⟩, ⟨1, 1⟩]]).accesses
    ∧ ¬(2 < maxColsOf [[⟨2, 1⟩, ⟨1, 1⟩], [⟨1, 1⟩, ⟨1, 1⟩]])
    ∧ (resolveRows [[⟨2, 1⟩, ⟨1, 1⟩], [⟨1, 1⟩, ⟨1, 1⟩]]).placements
        = [⟨0, 0, 2, 1⟩, ⟨0, 1, 1, 1⟩, ⟨1, 1, 1, 1⟩, ⟨1, 2, 1, 0⟩] := by
  decide

/-! ## List renderer lemmas -/

/-- The `parent` argument of the list renderer is threaded but never read:
paragraphs are always created on `self.doc`. -/
theorem handleList_parent_irrel (tag : ListTag) (cs : List LNode) (p1 p2 : ParentRef)
    (level start : Nat) :
    handleList tag cs p1 level start = handleList tag cs p2 level start := by
  match cs with
  | [] => simp [handleList]
  | .text s :: rest =>
      simp only [handleList]
      exact handleList_parent_irrel tag rest p1 p2 level start
  | .li inner :: rest =>
      simp only [handleList]
      rw [handleList_parent_irrel tag rest p1 p2 level (nextCounter tag start)]
  | .list t inner :: rest =>
      simp only [handleList]
      rw [handleList_parent_irrel t inner p1 p2 (level + 1) 1,
        handleList_parent_irrel tag rest p1 p2 level start]
  | .br :: rest =>
      simp only [handleList]
      exact handleList_parent_irrel tag rest p1 p2 level start
  | .unk inner :: rest =>
      simp only [handleList]
      exact handleList_parent_irrel tag rest p1 p2 level start
termination_by sizeOf cs

mutual

/-- Every paragraph emitted by a list invocation is at that invocation's
level or deeper. -/
theorem handleList_level_le (tag : ListTag) (cs : List LNode) (parent : ParentRef)
    (level start : Nat) :
    ∀ p ∈ handleList tag cs parent level start, level ≤ p.level := by
  match cs with
  | [] => intro p hp; simp [handleList] at hp
  | .text s :: rest =>
      simp only [handleList]
      exact handleList_level_le tag rest parent level start
  | .li inner :: rest =>
      intro p hp
      simp only [handleList, List.mem_cons, List.mem_append] at hp
      rcases hp with h | h | h
      · subst h; exact Nat.le_refl level
      · exact Nat.le_of_succ_le (parseItem_level_lt inner level p h)
      · exact handleList_level_le tag rest parent level (nextCounter tag start) p h
  | .list t inner :: rest =>
      intro p hp
      simp only [handleList, List.mem_append] at hp
      rcases hp with h | h
      · exact Nat.le_of_succ_le (handleList_level_le t inner parent (level + 1) 1 p h)
      · exact handleList_level_le tag rest parent level start p h
  | .br :: rest =>
      simp only [handleList]
      exact handleList_level_le tag rest parent level start
  | .unk inner :: rest =>
      simp only [handleList]
      exact handleList_level_le tag rest parent level start
termination_by sizeOf cs

/-- Every paragraph emitted while parsing an item's content is strictly
deeper than the item's level. -/
theorem parseItem_level_lt (cs : List LNode) (level : Nat) :
    ∀ p ∈ (parseListItemContent cs level).2, level + 1 ≤ p.level := by
  match cs with
  | [] => intro p hp; simp [parseListItemContent] at hp
  | .text s :: rest =>
      intro p hp
      simp only [parseListItemContent] at hp
      by_cases hs : pyStrip s = ""
      · rw [if_pos hs] at hp
        exact parseItem_level_lt rest level p hp
      · rw [if_neg hs] at hp
        exact parseItem_level_lt rest level p hp
  | .li inner :: rest =>
      simp only [parseListItemContent]
      exact parseItem_level_lt rest level
  | .list t inner :: rest =>
      intro p hp
      simp only [parseListItemContent, List.mem_append] at hp
      rcases hp with h | h
      · exact handleList_level_le t inner .docRef (level + 1) 1 p h
      · exact parseItem_level_lt rest level p h
  | .br :: rest =>
      simp only [parseListItemContent]
      exact parseItem_level_lt rest level
  | .unk inner :: rest =>
      simp only [parseListItemContent]
      exact parseItem_level_lt rest level
termination_by sizeOf cs

end

/-- Rendering an unordered list does not depend on the starting counter. -/
theorem handleList_ul_start_irrel (cs : List LNode) (parent : ParentRef) :
    ∀ level s s', handleList .ul cs parent level s = handleList .ul cs parent level s' := by
  induction cs with
  | nil => intro level s s'; simp [handleList]
  | cons c rest ih =>
      intro level s s'
      match c with
      | .text t => simp only [handleList]; exact ih level s s'
      | .li inner => simp only [handleList, nextCounter, markerRunText]; rw [ih level s s']
      | .list t inner => simp only [handleList]; rw [ih level s s']
      | .br => simp only [handleList]; exact ih level s s'
      | .unk inner => simp only [handleList]; exact ih level s s'

/-- The marker texts of the direct `li` paragraphs of an ordered-list
invocation (exactly the output paragraphs at the invocation's own level) are
consecutive counter values starting at `start`. -/
theorem handleList_ol_markers (cs : List LNode) (parent : ParentRef) (level : Nat) :
    ∀ start,
      ((handleList .ol cs parent level start).filter (fun p => p.level = level)).map
          firstRunText
        = (List.range (liCount cs)).map (fun k => olMarker level (start + k) ++ "\t") := by
  induction cs with
  | nil => intro start; simp [handleList, liCount]
  | cons c rest ih =>
      intro start
      match c with
      | .text t => simpa only [handleList, liCount] using ih start
      | .li inner =>
          have hdrop :
              (parseListItemContent inner level).2.filter (fun p => p.level = level) = [] := by
            rw [List.filter_eq_nil_iff]
            intro p hp
            have := parseItem_level_lt inner level p hp
            simp only [decide_eq_true_eq]
            omega
          simp only [handleList, nextCounter, liCount, List.filter_cons, List.filter_append,
            hdrop, decide_eq_true_eq, if_pos rfl, if_true, List.nil_append, List.map_cons,
            markerRunText, firstRunText, List.headD_cons]
          rw [ih (start + 1)]
          rw [List.range_succ_eq_map, List.map_cons, List.map_map]
          refine congrArg₂ _ (by rw [Nat.add_zero]) ?_
          apply List.map_congr_left
          intro k _
          simp only [Function.comp_apply]
          rw [show start + 1 + k = start + (k + 1) from by omega]
      | .list t inner =>
          have hdrop :
              (handleList t inner parent (level + 1) 1).filter (fun p => p.level = level)
                = [] := by
            rw [List.filter_eq_nil_iff]
            intro p hp
            have := handleList_level_le t inner parent (level + 1) 1 p hp
            simp only [decide_eq_true_eq]
            omega
          simpa only [handleList, liCount, List.filter_append, hdrop, List.nil_append]
            using ih start
      | .br => simpa only [handleList, liCount] using ih start
      | .unk inner => simpa only [handleList, liCount] using ih start

/-! ## Claim theorems: list renderer (C3, C4, C6) -/

/-- **C3.** For every ordered list, the per-level item counter starts at the
given `start` value and increments by one exactly once per direct `li` item
at that level: the marker texts of the paragraphs emitted at the
invocation's own level (its direct `li` items, in order) are the consecutive
counter values `start, start + 1, …`, unaffected by interleaved nested-list
excursions; a nested list — whether a direct child or inside an `li` — is
rendered by a fresh recursive call at the deeper level with a fresh counter
starting at 1; and rendering an unordered list is independent of the counter
value. -/
theorem c3_counter_level_local (cs : List LNode) (parent : ParentRef)
    (level start alt : Nat) (t : ListTag) (inner rest : List LNode) :
    (((handleList .ol cs parent level start).filter (fun p => p.level = level)).map
        firstRunText
      = (List.range (liCount cs)).map (fun k => olMarker level (start + k) ++ "\t"))
    ∧ handleList .ul cs parent level start = handleList .ul cs parent level alt
    ∧ handleList .ol (.list t inner :: rest) parent level start
        = handleList t inner parent (level + 1) 1
          ++ handleList .ol rest parent level start
    ∧ (parseListItemContent (.list t inner :: rest) level).2
        = handleList t inner .docRef (level + 1) 1
          ++ (parseListItemContent rest level).2 :=
  ⟨handleList_ol_markers cs parent level start,
   handleList_ul_start_irrel cs parent level start alt,
   by simp [handleList],
   by simp [parseListItemContent]⟩

/-- **C4.** The visible marker text of an ordered-list item with counter `k`
at nesting level `L` (always followed by the tab separator) is: at level 0
the Arabic numeral of `k` and a period; at level 1 the letter `'a' + k - 1`
and a period; at level 2 or deeper the lowercase Roman numeral of `k` and a
period when `1 ≤ k ≤ 3999`, and the decimal string of `k` and a period
otherwise. -/
theorem c4_ordered_marker_formula (level k : Nat) :
    markerRunText .ol level k = markerSpecC4 level k ++ "\t" := by
  have hm : olMarker level k = markerSpecC4 level k := by
    unfold olMarker markerSpecC4
    by_cases h0 : level = 0
    · rw [if_pos h0, if_pos h0]
    · rw [if_neg h0, if_neg h0]
      by_cases h1 : level = 1
      · rw [if_pos h1, if_pos h1]
      · rw [if_neg h1, if_neg h1]
        by_cases hr : 1 ≤ k ∧ k ≤ 3999
        · rw [if_pos hr, toRoman_eq_romanSpec k hr.1 (by omega)]
        · rw [if_neg hr]
          unfold toRoman
          rw [if_pos (by omega : ¬(1 ≤ k ∧ k < 4000))]
  simp [markerRunText, hm]

/-- **C6 counterexample.** The malformed list `ul[ul[li[X]]]` renders its
inner item at indent `1.0"` (2 half-inches) — exactly the same indent as the
inner item of the properly nested `ul[li[ul[li[X]]]]`, not one indent level
deeper as the claim states. -/
theorem c6_counterexample :
    ((handleList .ul [.list .ul [.li [.text "X"]]] .docRef 0 1).map
        (fun p => p.indentHalves) = [2])
    ∧ ((handleList .ul [.li [.list .ul [.li [.text "X"]]]] .docRef 0 1).map
        (fun p => p.indentHalves) = [1, 2])
    ∧ ¬((handleList .ul [.list .ul [.li [.text "X"]]] .docRef 0 1).map
          (fun p => p.indentHalves)
        = ((handleList .ul [.li [.list .ul [.li [.text "X"]]]] .docRef 0 1).drop 1).map
            (fun p => p.indentHalves + 1)) := by
  refine ⟨?_, ?_, ?_⟩ <;>
    · simp only [handleList, parseListItemContent]
      decide

/-- **C6 amended.** A `ul`/`ol` appearing as a direct child of a list node is
rendered at nesting level exactly one deeper than the outer list, reusing the
same parent target; its items are rendered *identically* (in particular with
the same left indent) to the rendering they would get properly nested inside
an `li` of the outer list — the only difference is the absence of the wrapper
`li`'s own paragraph. -/
theorem c6_amended_malformed_list_nesting (tag t : ListTag) (inner cs : List LNode)
    (parent : ParentRef) (level start : Nat) :
    handleList tag (.list t inner :: cs) parent level start
      = handleList t inner parent (level + 1) 1 ++ handleList tag cs parent level start
    ∧ handleList tag [.list t inner] parent level start
      = (handleList tag [.li [.list t inner]] parent level start).drop 1 := by
  constructor
  · simp [handleList]
  · simp only [handleList, parseListItemContent, List.drop_succ_cons, List.drop_zero,
      List.append_nil]
    exact handleList_parent_irrel t inner parent .docRef (level + 1) 1

/-! ## Claim theorems: block dispatcher (C5, C7, C8) -/

/-- **C5 counterexample.** With the document body as target and an existing
paragraph holding a run, a `br` does *not* append a break to that run: the
dispatcher unconditionally creates a fresh (empty) paragraph at document
level, so no break is ever appended there. -/
theorem c5_counterexample :
    parseElements cfg0 [.br] .docT [⟨none, none, [textRun "x"]⟩]
        = .ok [⟨none, none, [textRun "x"]⟩, emptyPara]
    ∧ parseElements cfg0 [.br] .docT [⟨none, none, [textRun "x"]⟩]
        ≠ .ok [⟨none, none, [⟨"x", 1, none, false⟩]⟩] := by
  constructor
  · simp [parseElements]
  · simp only [parseElements, ne_eq, Except.ok.injEq]
    decide

/-- **C5 amended.** For a `br` at block level: with the document body as
target a fresh empty paragraph is always created (and hence no break is ever
appended); with a cell as target the cell's last paragraph is obtained
(created only if none exists) and a manual break is appended to its last run
if the paragraph has at least one run, while a run-less paragraph makes the
`br` a no-op. -/
theorem c5_amended_br_behavior (cfg : Config) (st : DocState) :
    parseElements cfg [.br] .docT st = .ok (st ++ [emptyPara])
    ∧ (st = [] → parseElements cfg [.br] .cellT st = .ok [emptyPara])
    ∧ (∀ p, st.getLast? = some p → p.runs = [] →
        parseElements cfg [.br] .cellT st = .ok st)
    ∧ (∀ p, st.getLast? = some p → p.runs ≠ [] →
        parseElements cfg [.br] .cellT st
          = .ok (mapLast (fun q => ⟨q.style, q.shading, mapLast addBreakToRun q.runs⟩) st)) := by
  refine ⟨by simp [parseElements], ?_, ?_, ?_⟩
  · intro h; subst h; simp [parseElements]
  · intro p hlast hruns
    simp [parseElements, hlast, hruns]
  · intro p hlast hruns
    have hne : p.runs.isEmpty = false := by
      cases hr : p.runs with
      | nil => exact absurd hr hruns
      | cons a l => simp
    simp [parseElements, hlast, hne]

/-- **C5 amended witness.** -/
theorem c5_amended_br_behavior_witness :
    ([⟨none, none, [textRun "y"]⟩] : DocState).getLast? = some ⟨none, none, [textRun "y"]⟩
    ∧ ([textRun "y"] : List DRun) ≠ []
    ∧ parseElements cfg0 [.br] .cellT [⟨none, none, [textRun "y"]⟩]
        = .ok [⟨none, none, [⟨"y", 1, none, false⟩]⟩] := by
  refine ⟨rfl, by decide, ?_⟩
  have h := (c5_amended_br_behavior cfg0 [⟨none, none, [textRun "y"]⟩]).2.2.2
    ⟨none, none, [textRun "y"]⟩ rfl (by decide)
  simpa [mapLast, addBreakToRun, textRun] using h

/-- **C7.** A `pre` element emits one paragraph containing exactly one run
whose text is the raw, unstripped flattened text of the element, in the
fixed-width `Courier New` font; a text node at block level or inside a
paragraph emits a run holding the node's text stripped of leading and
trailing whitespace, and a whitespace-only text node produces nothing. -/
theorem c7_pre_raw_text_nodes_stripped (cfg : Config) (cs : List Elem) (ctx : Ctx)
    (st : DocState) (s : String) (idx : Nat) :
    parseElements cfg [.pre cs] ctx st
        = .ok (st ++ [⟨some "No Spacing", some "F5F5F5",
            [⟨getText cs, 0, some "Courier New", false⟩]⟩])
    ∧ (pyStrip s = "" → parseElements cfg [.text s] ctx st = .ok st)
    ∧ (pyStrip s ≠ "" →
        parseElements cfg [.text s] .docT st
          = .ok (if st = [] then [⟨none, none, [textRun (pyStrip s)]⟩]
              else mapLast (addRunToPara (textRun (pyStrip s))) st)
        ∧ parseElements cfg [.text s] .cellT st
          = .ok (if st = [] then [⟨none, none, [textRun (pyStrip s)]⟩]
              else mapLast (addRunToPara (textRun (pyStrip s))) st)
        ∧ parseElements cfg [.text s] (.paraT idx) st
          = .ok (modifyIdx (addRunToPara (textRun (pyStrip s))) idx st)) := by
  refine ⟨by simp [parseElements, prePara], ?_, ?_⟩
  · intro h
    cases ctx <;> cases st <;> simp [parseElements, h]
  · intro h
    refine ⟨?_, ?_, by simp [parseElements, h]⟩ <;>
      · cases st with
        | nil => simp [parseElements, h]
        | cons a l => simp [parseElements, h]

/-- **C7 witness.** -/
theorem c7_pre_raw_text_nodes_stripped_witness :
    pyStrip " \n " = "" ∧ pyStrip " hi " = "hi"
    ∧ parseElements cfg0 [.text " \n "] .docT [] = .ok []
    ∧ parseElements cfg0 [.text " hi "] .cellT [] = .ok [⟨none, none, [textRun "hi"]⟩]
    ∧ parseElements cfg0 [.pre [.text " a\n  b "]] .docT []
        = .ok [⟨some "No Spacing", some "F5F5F5",
            [⟨" a\n  b ", 0, some "Courier New", false⟩]⟩] := by
  refine ⟨by decide, by decide, ?_, ?_, ?_⟩
  · exact (c7_pre_raw_text_nodes_stripped cfg0 [] .docT [] " \n " 0).2.1 (by decide)
  · have h := ((c7_pre_raw_text_nodes_stripped cfg0 [] .cellT [] " hi " 0).2.2
      (by decide)).2.1
    simpa [show pyStrip " hi " = "hi" from by decide] using h
  · have h := (c7_pre_raw_text_nodes_stripped cfg0 [.text " a\n  b "] .docT [] "" 0).1
    simpa [getText] using h

/-- **C8.** With images enabled, an `img` whose `src` is recognized as a URL
but whose fetch fails emits exactly one fallback paragraph whose text is
`<image: ` followed by the full literal URL and `>`; an `img` whose `src` is
neither a URL nor an existing local path emits the fallback with only the
trailing path segment of the `src`. -/
theorem c8_img_fallback (cfg : Config) (src : String) (st : DocState)
    (himg : cfg.includeImages = true) :
    (isUrl src = true → cfg.fetchOk src = false →
      handleImg cfg (some src) .docT st = st ++ [textPara ("<image: " ++ src ++ ">")]
      ∧ handleImg cfg (some src) .cellT st = st ++ [textPara ("<image: " ++ src ++ ">")])
    ∧ (isUrl src = false → cfg.pathExists src = false →
      handleImg cfg (some src) .docT st
          = st ++ [textPara ("<image: " ++ getFilenameFromUrl src ++ ">")]
      ∧ handleImg cfg (some src) .cellT st
          = st ++ [textPara ("<image: " ++ getFilenameFromUrl src ++ ">")]) := by
  constructor
  · intro hu hf
    constructor <;> simp [handleImg, himg, hu, hf]
  · intro hu hp
    constructor <;> simp [handleImg, himg, hu, hp]

/-- **C8 witness.** -/
theorem c8_img_fallback_witness :
    cfg0.includeImages = true ∧ isUrl "http://ex.com/a.png" = true
    ∧ cfg0.fetchOk "http://ex.com/a.png" = false
    ∧ handleImg cfg0 (some "http://ex.com/a.png") .docT []
        = [textPara "<image: http://ex.com/a.png>"]
    ∧ isUrl "imgs/b.png" = false ∧ cfg0.pathExists "imgs/b.png" = false
    ∧ handleImg cfg0 (some "imgs/b.png") .docT [] = [textPara "<image: b.png>"] := by
  refine ⟨rfl, by decide, rfl, ?_, by decide, rfl, ?_⟩
  · have h := ((c8_img_fallback cfg0 "http://ex.com/a.png" [] rfl).1 (by decide) rfl).1
    simpa using h
  · have h := ((c8_img_fallback cfg0 "imgs/b.png" [] rfl).2 (by decide) rfl).1
    have hb : getFilenameFromUrl "imgs/b.png" = "b.png" := by decide
    rw [hb] at h
    simpa using h

/-! ## Claim theorems: entry points (C9, C10) -/

/-- **C9.** If the HTML input is not a string, or the target is neither a
document nor a table cell, the conversion entry point raises
`InvalidInputType` before any conversion begins: the call returns the error
and never an output state, so the target is left unchanged. -/
theorem c9_invalid_input_rejected (cfg : Config) (h : HtmlArg) (t : TargetArg)
    (hbad : h = .nonString ∨ t = .other) :
    addHtmlToDocument cfg h t = .error .invalidInputType
    ∧ ∀ res, addHtmlToDocument cfg h t ≠ .ok res := by
  have he : addHtmlToDocument cfg h t = .error .invalidInputType := by
    rcases hbad with hb | hb
    · subst hb; rfl
    · subst hb; cases h <;> rfl
  exact ⟨he, fun res hok => by rw [he] at hok; exact Except.noConfusion hok⟩

/-- **C9 witness.** -/
theorem c9_invalid_input_rejected_witness :
    addHtmlToDocument cfg0 .nonString (.document [textPara "z"])
      = .error .invalidInputType :=
  (c9_invalid_input_rejected cfg0 .nonString (.document [textPara "z"]) (Or.inl rfl)).1

/-- **C10.** `add_html_to_cell` erases the cell's pre-existing content — the
successful result is a function of the HTML alone, independent of the cell's
prior paragraphs — and it always leaves at least one paragraph: when the
conversion produced none, exactly one empty paragraph is appended. -/
theorem c10_cell_replace_nonempty (cfg : Config) (elems : List Elem)
    (cellA cellB res : DocState) (h : addHtmlToCell cfg elems cellA = .ok res) :
    addHtmlToCell cfg elems cellB = .ok res
    ∧ 1 ≤ res.length
    ∧ (parseElements cfg elems .cellT [] = .ok [] → res = [emptyPara]) := by
  refine ⟨h, ?_, ?_⟩
  · unfold addHtmlToCell at h
    cases hp : parseElements cfg elems .cellT [] with
    | error e => rw [hp] at h; exact absurd h (by simp)
    | ok conv =>
        rw [hp] at h
        have hres : (if conv.isEmpty then conv ++ [emptyPara] else conv) = res := by
          simpa using h
        cases conv with
        | nil => rw [← hres]; simp
        | cons a l => rw [← hres]; simp
  · intro hnil
    unfold addHtmlToCell at h
    rw [hnil] at h
    simpa using h.symm

/-- **C10 witness.** Converting empty HTML into a cell that previously held
a paragraph yields exactly one empty paragraph, the same result as for a
previously empty cell. -/
theorem c10_cell_replace_nonempty_witness :
    addHtmlToCell cfg0 [] [textPara "old"] = .ok [emptyPara]
    ∧ 1 ≤ ([emptyPara] : DocState).length
    ∧ ([emptyPara] : DocState) = [emptyPara] := by
  have h0 : addHtmlToCell cfg0 [] [] = .ok [emptyPara] := by
    simp [addHtmlToCell, parseElements]
  have h := c10_cell_replace_nonempty cfg0 [] [] [textPara "old"] [emptyPara] h0
  exact ⟨h.1, h.2.1, h.2.2 (by simp [parseElements])⟩

end Html2Docx
